import Mathlib

/-!
Verification of the in-memory cache adapter (`src/adapter/memory/memory.go`).

The adapter stores gob-encoded cache entries in a Go map `map[uint64][]byte`,
bounded by a capacity, with four eviction algorithms (LRU, MRU, LFU, MFU).

Modelling choices:
* `time.Time` values are modelled as natural numbers (`Time := Nat`);
  `t1.Before t2`, `t1.After t2`, `t1.Equal t2` become `t1 < t2`, `t2 < t1`,
  `t1 = t2`, and the zero `time.Time{}` becomes `0`.  All `time.Now()` calls
  made inside one adapter operation are modelled as a single `now` parameter
  of that operation.
* the Go map is modelled as an association list with pairwise-distinct keys;
  map iteration order is the list order (arbitrary but fixed, as in the spec).
* `encoding/gob` is modelled by its observable contract: encoding a
  `Response` yields a record that decodes back to the same `Response`;
  decoding malformed bytes leaves the zero value in place because the code
  ignores the `Decode` error (`dec.Decode(&r)` with `r` zero-initialised).
  `GobData` is the type of byte blobs: either a well-formed encoded record
  or junk.
* `sync.RWMutex` operations have no sequential content and are dropped; the
  concurrency claim about them is handled outside this embedding.
-/

/-- Timestamps (models `time.Time`). -/
abbrev Time := Nat

/-- Cache keys (models `uint64`; keys are opaque, only compared for equality). -/
abbrev Key := Nat

/-- The `Response` struct of `adapter/memory/memory.go`. -/
structure Response where
  Value : List Nat
  Expiration : Time
  LastAccess : Time
  Frequency : Nat
deriving DecidableEq

/-- A gob-encoded byte blob: either a well-formed encoding of a `Response`
or malformed/truncated bytes (`junk`). -/
inductive GobData where
  | record (r : Response)
  | junk (n : Nat)
deriving DecidableEq

/-- The zero value of `Response` (what gob decoding leaves behind on error). -/
def zeroResponse : Response := { Value := [], Expiration := 0, LastAccess := 0, Frequency := 0 }

/-- `BytesToResponse` of `memory.go`: gob-decodes, silently ignoring the
decode error, so malformed input yields the zero-valued `Response`. -/
def BytesToResponse : GobData → Response
  | .record r => r
  | .junk _ => zeroResponse

/-- `Response.Bytes` of `memory.go`: gob-encodes the entry. -/
def Response.Bytes (r : Response) : GobData := .record r

/-- Modelled from the spec: the root package decoder `cache.BytesToResponse`
used by `Adapter.evict` (the root package `github.com/rishikesh-parspec/echo-http-cache`
is not under `src/`; only its adapters are).  Per the spec the Entry Codec is
a single component used uniformly by every backend, so it decodes an encoded
record back to the entry and zero-fills on malformed input, identically to
the adapter's local `BytesToResponse`. -/
def cacheBytesToResponse : GobData → Response := BytesToResponse

/-- The backing map `map[uint64][]byte`, modelled as an association list. -/
abbrev Store := List (Key × GobData)

/-- Map lookup `a.store[key]`. -/
def storeLookup : Store → Key → Option GobData
  | [], _ => none
  | p :: s, k => if p.1 = k then some p.2 else storeLookup s k

/-- Map deletion `delete(a.store, key)`. -/
def storeErase : Store → Key → Store
  | [], _ => []
  | p :: s, k => if p.1 = k then storeErase s k else p :: storeErase s k

/-- Map insertion `a.store[key] = v` (replace if present, otherwise add). -/
def storeInsert : Store → Key → GobData → Store
  | [], k, v => [(k, v)]
  | p :: s, k, v => if p.1 = k then (k, v) :: s else p :: storeInsert s k v

/-- The key set of the map. -/
def storeKeys (s : Store) : List Key := s.map Prod.fst

/-- The `Algorithm` constant `LRU`. -/
def LRU : String := "LRU"

/-- The `Algorithm` constant `MRU`. -/
def MRU : String := "MRU"

/-- The `Algorithm` constant `LFU`. -/
def LFU : String := "LFU"

/-- The `Algorithm` constant `MFU`. -/
def MFU : String := "MFU"

/-- The `Adapter` struct (the mutex carries no sequential state). -/
structure Adapter where
  capacity : Int
  algorithm : String
  store : Store
deriving DecidableEq

/-- One iteration of the eviction scan loop in `Adapter.evict`: the
accumulator is `(selectedKey, lastAccess, frequency)` and `p` is the map
entry `(k, v)` being visited; the body decodes `r := cache.BytesToResponse(v)`
and switches on the algorithm. -/
def evictStep (alg : String) (acc : Key × Time × Nat) (p : Key × GobData) : Key × Time × Nat :=
  if alg = LRU then
    if (cacheBytesToResponse p.2).LastAccess < acc.2.1 then
      (p.1, (cacheBytesToResponse p.2).LastAccess, acc.2.2)
    else acc
  else if alg = MRU then
    if acc.2.1 ≤ (cacheBytesToResponse p.2).LastAccess then
      (p.1, (cacheBytesToResponse p.2).LastAccess, acc.2.2)
    else acc
  else if alg = LFU then
    if (cacheBytesToResponse p.2).Frequency < acc.2.2 then
      (p.1, acc.2.1, (cacheBytesToResponse p.2).Frequency)
    else acc
  else if alg = MFU then
    if acc.2.2 ≤ (cacheBytesToResponse p.2).Frequency then
      (p.1, acc.2.1, (cacheBytesToResponse p.2).Frequency)
    else acc
  else acc

/-- The initial accumulator of the eviction scan:
`selectedKey := uint64(0)`, `lastAccess := time.Now()` (reset to the zero
time for MRU), `frequency := 2147483647` (reset to 0 for MFU). -/
def evictInit (alg : String) (now : Time) : Key × Time × Nat :=
  (0, (if alg = MRU then 0 else now), (if alg = MFU then 0 else 2147483647))

/-- `Adapter.Release`: deletes the key if present, no-op otherwise. -/
def Adapter.Release (a : Adapter) (k : Key) : Adapter :=
  match storeLookup a.store k with
  | some _ => { a with store := storeErase a.store k }
  | none => a

/-- `Adapter.evict`: scans the whole store selecting a victim per the
algorithm, then releases the selected key. -/
def Adapter.evict (a : Adapter) (now : Time) : Adapter :=
  a.Release ((a.store.foldl (evictStep a.algorithm) (evictInit a.algorithm now)).1)

/-- `Adapter.Get`: returns `(value, true)` when the key is present and the
entry's expiration is strictly after `now`, refreshing `LastAccess` and
incrementing `Frequency` by re-encoding the entry into the store; otherwise
removes an expired entry via `Release` and reports a miss. -/
def Adapter.Get (a : Adapter) (k : Key) (now : Time) : Option (List Nat) × Bool × Adapter :=
  match storeLookup a.store k with
  | none => (none, false, a)
  | some res =>
    let response := BytesToResponse res
    if now < response.Expiration then
      let response2 : Response :=
        { response with LastAccess := now, Frequency := response.Frequency + 1 }
      (some response2.Value, true, { a with store := storeInsert a.store k response2.Bytes })
    else
      (none, false, a.Release k)

/-- `Adapter.Set`: builds a fresh entry with `Frequency = 1` and
`LastAccess = now`, evicts when `len(store) > 0 && len(store) == capacity`,
then inserts the encoded entry. -/
def Adapter.Set (a : Adapter) (k : Key) (value : List Nat) (expiration : Time) (now : Time) :
    Adapter :=
  let res : Response := { Value := value, Expiration := expiration, LastAccess := now, Frequency := 1 }
  let a2 := if 0 < a.store.length ∧ (a.store.length : Int) = a.capacity then a.evict now else a
  { a2 with store := storeInsert a2.store k res.Bytes }

/-- `Adapter.Purge`: resets the store to empty. -/
def Adapter.Purge (a : Adapter) : Adapter := { a with store := [] }

/-- `AdapterOptions`: an option mutates the adapter or fails. -/
def AdapterOptions := Adapter → Except String Adapter

/-- `AdapterWithAlgorithm`: sets the eviction algorithm (never fails). -/
def AdapterWithAlgorithm (alg : String) : AdapterOptions :=
  fun a => .ok { a with algorithm := alg }

/-- `AdapterWithCapacity`: rejects capacities `≤ 1`, otherwise sets it. -/
def AdapterWithCapacity (c : Int) : AdapterOptions :=
  fun a =>
    if c ≤ 1 then .error "memory adapter requires a capacity greater than the given value"
    else .ok { a with capacity := c }

/-- The option-application loop of `NewAdapter`. -/
def applyOpts : List AdapterOptions → Adapter → Except String Adapter
  | [], a => .ok a
  | opt :: rest, a =>
    match opt a with
    | .error e => .error e
    | .ok a2 => applyOpts rest a2

/-- The post-options validation of `NewAdapter`: fails when `capacity ≤ 1`
or when the algorithm is the empty string; otherwise returns the adapter
with a fresh empty store (`a.store = make(...)`). -/
def finalizeAdapter (a : Adapter) : Except String Adapter :=
  if a.capacity ≤ 1 then .error "memory adapter capacity is not set"
  else if a.algorithm = "" then .error "memory adapter caching algorithm is not set"
  else .ok { a with store := [] }

/-- `NewAdapter`: applies the options to a zero-valued adapter, then runs
the validation above. -/
def NewAdapter (opts : List AdapterOptions) : Except String Adapter :=
  match applyOpts opts { capacity := 0, algorithm := "", store := [] } with
  | .error e => .error e
  | .ok a => finalizeAdapter a

/-- Whether a constructor result is a success. -/
def exceptOk : Except String Adapter → Bool
  | .ok _ => true
  | .error _ => false

/-- A freshly constructed adapter (what a successful `NewAdapter` returns). -/
def freshAdapter (alg : String) (c : Int) : Adapter :=
  { capacity := c, algorithm := alg, store := [] }

/-- One `Set` call of a sequential program: key, value, expiration and the
time at which the call runs. -/
structure SetCall where
  key : Key
  value : List Nat
  expiration : Time
  now : Time
deriving DecidableEq

/-- Runs a sequential program of `Set` calls against an adapter. -/
def runSets (a : Adapter) : List SetCall → Adapter
  | [] => a
  | c :: cs => runSets (a.Set c.key c.value c.expiration c.now) cs

/-- The encoded entry `Set` stores: `Frequency = 1`, `LastAccess = now`. -/
def freshEntry (v : List Nat) (exp now : Time) : GobData :=
  GobData.record { Value := v, Expiration := exp, LastAccess := now, Frequency := 1 }

/-- Claim C5: decoding the encoding of any valid entry yields the entry
itself: `BytesToResponse (e.Bytes()) = e`. -/
theorem bytes_roundtrip (e : Response) : BytesToResponse e.Bytes = e := rfl

theorem storeLookup_insert_self (s : Store) (k : Key) (v : GobData) :
    storeLookup (storeInsert s k v) k = some v := by
  induction s with
  | nil => simp [storeInsert, storeLookup]
  | cons p s ih =>
    by_cases h : p.1 = k
    · simp [storeInsert, h, storeLookup]
    · simp [storeInsert, h, storeLookup, ih]

theorem storeLookup_insert_ne (s : Store) (k k2 : Key) (v : GobData) (h : k2 ≠ k) :
    storeLookup (storeInsert s k v) k2 = storeLookup s k2 := by
  induction s with
  | nil =>
    simp only [storeInsert, storeLookup]
    rw [if_neg (Ne.symm h)]
  | cons p s ih =>
    by_cases hp : p.1 = k
    · rw [show storeInsert (p :: s) k v = (k, v) :: s from if_pos hp]
      show (if k = k2 then some v else storeLookup s k2)
        = (if p.1 = k2 then some p.2 else storeLookup s k2)
      rw [if_neg (Ne.symm h), if_neg (by rw [hp]; exact Ne.symm h)]
    · rw [show storeInsert (p :: s) k v = p :: storeInsert s k v from if_neg hp]
      show (if p.1 = k2 then some p.2 else storeLookup (storeInsert s k v) k2)
        = (if p.1 = k2 then some p.2 else storeLookup s k2)
      by_cases hp2 : p.1 = k2
      · rw [if_pos hp2, if_pos hp2]
      · rw [if_neg hp2, if_neg hp2, ih]

theorem storeLookup_erase_self (s : Store) (k : Key) :
    storeLookup (storeErase s k) k = none := by
  induction s with
  | nil => simp [storeErase, storeLookup]
  | cons p s ih =>
    by_cases h : p.1 = k
    · simp [storeErase, h, ih]
    · simp [storeErase, h, storeLookup, ih]

theorem storeLookup_erase_ne (s : Store) (k k2 : Key) (h : k2 ≠ k) :
    storeLookup (storeErase s k) k2 = storeLookup s k2 := by
  induction s with
  | nil => simp [storeErase]
  | cons p s ih =>
    by_cases hp : p.1 = k
    · rw [show storeErase (p :: s) k = storeErase s k from if_pos hp, ih,
        show storeLookup (p :: s) k2 = storeLookup s k2 from
          if_neg (by rw [hp]; exact Ne.symm h)]
    · rw [show storeErase (p :: s) k = p :: storeErase s k from if_neg hp]
      show (if p.1 = k2 then some p.2 else storeLookup (storeErase s k) k2)
        = (if p.1 = k2 then some p.2 else storeLookup s k2)
      by_cases hp2 : p.1 = k2
      · rw [if_pos hp2, if_pos hp2]
      · rw [if_neg hp2, if_neg hp2, ih]

theorem storeErase_sublist (s : Store) (k : Key) : (storeErase s k).Sublist s := by
  induction s with
  | nil => simp [storeErase]
  | cons p s ih =>
    by_cases h : p.1 = k
    · simp only [storeErase, if_pos h]
      exact ih.cons p
    · simp only [storeErase, if_neg h]
      exact ih.cons₂ p

theorem mem_of_mem_storeErase (s : Store) (k : Key) (p : Key × GobData)
    (h : p ∈ storeErase s k) : p ∈ s :=
  (storeErase_sublist s k).subset h

theorem storeKeys_erase_nodup (s : Store) (k : Key) (h : (storeKeys s).Nodup) :
    (storeKeys (storeErase s k)).Nodup :=
  h.sublist ((storeErase_sublist s k).map Prod.fst)

theorem storeErase_of_not_mem (s : Store) (k : Key) (h : k ∉ storeKeys s) :
    storeErase s k = s := by
  induction s with
  | nil => simp [storeErase]
  | cons p s ih =>
    have h2 : ¬(k = p.1 ∨ k ∈ storeKeys s) := fun hh => h (List.mem_cons.mpr hh)
    push_neg at h2
    rw [show storeErase (p :: s) k = p :: storeErase s k from if_neg (Ne.symm h2.1),
      ih h2.2]

theorem length_storeErase_of_mem (s : Store) (k : Key)
    (hnd : (storeKeys s).Nodup) (h : k ∈ storeKeys s) :
    (storeErase s k).length + 1 = s.length := by
  induction s with
  | nil => simp [storeKeys] at h
  | cons p s ih =>
    have hnd2 : p.1 ∉ storeKeys s ∧ (storeKeys s).Nodup := List.nodup_cons.mp hnd
    have h2 : k = p.1 ∨ k ∈ storeKeys s := List.mem_cons.mp h
    rcases h2 with hk | hk
    · rw [show storeErase (p :: s) k = storeErase s k from if_pos hk.symm,
        storeErase_of_not_mem s k (by rw [hk]; exact hnd2.1)]
      rfl
    · have hp : p.1 ≠ k := fun hh => hnd2.1 (by rw [hh]; exact hk)
      rw [show storeErase (p :: s) k = p :: storeErase s k from if_neg hp]
      have ihh := ih hnd2.2 hk
      show (storeErase s k).length + 1 + 1 = s.length + 1
      omega

theorem storeKeys_insert_of_not_mem (s : Store) (k : Key) (v : GobData)
    (h : k ∉ storeKeys s) :
    storeKeys (storeInsert s k v) = storeKeys s ++ [k] := by
  induction s with
  | nil => rfl
  | cons p s ih =>
    have h2 : ¬(k = p.1 ∨ k ∈ storeKeys s) := fun hh => h (List.mem_cons.mpr hh)
    push_neg at h2
    rw [show storeInsert (p :: s) k v = p :: storeInsert s k v from if_neg (Ne.symm h2.1)]
    show p.1 :: storeKeys (storeInsert s k v) = p.1 :: (storeKeys s ++ [k])
    rw [ih h2.2]

theorem length_storeInsert_of_not_mem (s : Store) (k : Key) (v : GobData)
    (h : k ∉ storeKeys s) :
    (storeInsert s k v).length = s.length + 1 := by
  have h1 : (storeKeys (storeInsert s k v)).length = (storeKeys s).length + 1 := by
    rw [storeKeys_insert_of_not_mem s k v h]; simp
  simpa [storeKeys] using h1

theorem storeKeys_insert_nodup (s : Store) (k : Key) (v : GobData)
    (hnd : (storeKeys s).Nodup) (h : k ∉ storeKeys s) :
    (storeKeys (storeInsert s k v)).Nodup := by
  rw [storeKeys_insert_of_not_mem s k v h, List.nodup_append]
  refine ⟨hnd, List.nodup_singleton k, ?_⟩
  intro a ha hb
  rw [List.mem_singleton] at hb
  exact h (hb ▸ ha)

theorem mem_of_mem_storeInsert (s : Store) (k : Key) (v : GobData) (p : Key × GobData)
    (h : p ∈ storeInsert s k v) : p ∈ s ∨ p = (k, v) := by
  induction s with
  | nil => simp only [storeInsert, List.mem_singleton] at h; exact Or.inr h
  | cons q s ih =>
    by_cases hq : q.1 = k
    · simp only [storeInsert, if_pos hq, List.mem_cons] at h
      rcases h with h | h
      · exact Or.inr h
      · exact Or.inl (List.mem_cons_of_mem q h)
    · simp only [storeInsert, if_neg hq, List.mem_cons] at h
      rcases h with h | h
      · exact Or.inl (h ▸ List.mem_cons_self q s)
      · rcases ih h with h2 | h2
        · exact Or.inl (List.mem_cons_of_mem q h2)
        · exact Or.inr h2

theorem storeLookup_eq_of_mem (s : Store) (k : Key) (d : GobData)
    (hnd : (storeKeys s).Nodup) (h : (k, d) ∈ s) : storeLookup s k = some d := by
  induction s with
  | nil => simp at h
  | cons p s ih =>
    simp only [storeKeys, List.map_cons, List.nodup_cons] at hnd
    rcases List.mem_cons.mp h with hk | hk
    · rw [← hk]
      simp [storeLookup]
    · have hp : p.1 ≠ k := by
        intro hh
        exact hnd.1 (hh ▸ List.mem_map_of_mem Prod.fst hk)
      simp only [storeLookup, if_neg hp]
      exact ih hnd.2 hk

theorem storeLookup_some_of_mem_keys (s : Store) (k : Key) (h : k ∈ storeKeys s) :
    ∃ d, storeLookup s k = some d := by
  induction s with
  | nil => simp [storeKeys] at h
  | cons p s ih =>
    by_cases hp : p.1 = k
    · exact ⟨p.2, by simp [storeLookup, hp]⟩
    · have h2 : k = p.1 ∨ k ∈ storeKeys s := List.mem_cons.mp h
      have h3 : k ∈ storeKeys s := by
        rcases h2 with hk | hk
        · exact absurd hk.symm hp
        · exact hk
      rcases ih h3 with ⟨d, hd⟩
      exact ⟨d, by simp [storeLookup, hp, hd]⟩

theorem mem_keys_of_mem (s : Store) (p : Key × GobData) (h : p ∈ s) :
    p.1 ∈ storeKeys s := List.mem_map_of_mem Prod.fst h

theorem entry_unique (s : Store) (k : Key) (d : GobData)
    (hnd : (storeKeys s).Nodup) (h : (k, d) ∈ s) :
    ∀ p ∈ s, p.1 = k → p.2 = d := by
  intro p hp hpk
  have h1 : storeLookup s k = some d := storeLookup_eq_of_mem s k d hnd h
  have h2 : storeLookup s k = some p.2 :=
    storeLookup_eq_of_mem s k p.2 hnd (by rw [← hpk]; exact hp)
  have := h1.symm.trans h2
  exact (Option.some_inj.mp this).symm

theorem evictStep_LRU (acc : Key × Time × Nat) (p : Key × GobData) :
    evictStep LRU acc p =
      if (cacheBytesToResponse p.2).LastAccess < acc.2.1 then
        (p.1, (cacheBytesToResponse p.2).LastAccess, acc.2.2)
      else acc := by
  unfold evictStep
  rw [if_pos rfl]

theorem evictStep_MRU (acc : Key × Time × Nat) (p : Key × GobData) :
    evictStep MRU acc p =
      if acc.2.1 ≤ (cacheBytesToResponse p.2).LastAccess then
        (p.1, (cacheBytesToResponse p.2).LastAccess, acc.2.2)
      else acc := by
  unfold evictStep
  rw [if_neg (by decide), if_pos rfl]

theorem evictStep_LFU (acc : Key × Time × Nat) (p : Key × GobData) :
    evictStep LFU acc p =
      if (cacheBytesToResponse p.2).Frequency < acc.2.2 then
        (p.1, acc.2.1, (cacheBytesToResponse p.2).Frequency)
      else acc := by
  unfold evictStep
  rw [if_neg (by decide), if_neg (by decide), if_pos rfl]

theorem evictStep_MFU (acc : Key × Time × Nat) (p : Key × GobData) :
    evictStep MFU acc p =
      if acc.2.2 ≤ (cacheBytesToResponse p.2).Frequency then
        (p.1, acc.2.1, (cacheBytesToResponse p.2).Frequency)
      else acc := by
  unfold evictStep
  rw [if_neg (by decide), if_neg (by decide), if_neg (by decide), if_pos rfl]

theorem evictInit_LRU (now : Time) : evictInit LRU now = (0, now, 2147483647) := by
  unfold evictInit
  rw [if_neg (by decide), if_neg (by decide)]

theorem evictInit_MRU (now : Time) : evictInit MRU now = (0, 0, 2147483647) := by
  unfold evictInit
  rw [if_pos rfl, if_neg (by decide)]

theorem evictInit_LFU (now : Time) : evictInit LFU now = (0, now, 2147483647) := by
  unfold evictInit
  rw [if_neg (by decide), if_neg (by decide)]

theorem evictInit_MFU (now : Time) : evictInit MFU now = (0, now, 0) := by
  unfold evictInit
  rw [if_neg (by decide), if_pos rfl]

theorem evictStep_fst (alg : String) (acc : Key × Time × Nat) (p : Key × GobData) :
    evictStep alg acc p = acc ∨ (evictStep alg acc p).1 = p.1 := by
  unfold evictStep
  split_ifs <;> simp

theorem foldl_evictStep_mem (alg : String) (l : Store) :
    ∀ acc : Key × Time × Nat,
      (l.foldl (evictStep alg) acc).1 = acc.1 ∨
        (l.foldl (evictStep alg) acc).1 ∈ storeKeys l := by
  induction l with
  | nil => intro acc; exact Or.inl rfl
  | cons p t ih =>
    intro acc
    rw [List.foldl_cons]
    rcases ih (evictStep alg acc p) with h | h
    · rcases evictStep_fst alg acc p with h2 | h2
      · rw [h2] at h
        rw [h2]
        exact Or.inl h
      · rw [h2] at h
        exact Or.inr (by rw [h]; exact List.mem_cons_self p.1 (storeKeys t))
    · exact Or.inr (List.mem_cons_of_mem p.1 h)

theorem lru_fold_keep (l : Store) :
    ∀ acc : Key × Time × Nat,
      (∀ p ∈ l, ¬((cacheBytesToResponse p.2).LastAccess < acc.2.1)) →
      l.foldl (evictStep LRU) acc = acc := by
  induction l with
  | nil => intro acc _; rfl
  | cons p t ih =>
    intro acc h
    rw [List.foldl_cons, evictStep_LRU, if_neg (h p (List.mem_cons_self p t))]
    exact ih acc (fun q hq => h q (List.mem_cons_of_mem p hq))

theorem lru_fold_min (l : Store) :
    ∀ (acc : Key × Time × Nat) (kmin : Key) (rmin : Response),
      (kmin, GobData.record rmin) ∈ l →
      rmin.LastAccess < acc.2.1 →
      (∀ p ∈ l, p.1 ≠ kmin → rmin.LastAccess < (cacheBytesToResponse p.2).LastAccess) →
      (∀ p ∈ l, p.1 = kmin → p.2 = GobData.record rmin) →
      (l.foldl (evictStep LRU) acc).1 = kmin := by
  induction l with
  | nil =>
    intro acc kmin rmin hmem
    simp at hmem
  | cons p t ih =>
    intro acc kmin rmin hmem hacc hmin huniq
    rw [List.foldl_cons]
    by_cases hp : p.1 = kmin
    · have hpd : p.2 = GobData.record rmin := huniq p (List.mem_cons_self p t) hp
      have hdec : cacheBytesToResponse p.2 = rmin := by rw [hpd]; rfl
      have hkeep : ∀ q ∈ t, ¬((cacheBytesToResponse q.2).LastAccess < rmin.LastAccess) := by
        intro q hq
        by_cases hqk : q.1 = kmin
        · have hq2 : cacheBytesToResponse q.2 = rmin := by
            rw [huniq q (List.mem_cons_of_mem p hq) hqk]; rfl
          rw [hq2]
          exact lt_irrefl _
        · exact not_lt.mpr (le_of_lt (hmin q (List.mem_cons_of_mem p hq) hqk))
      rw [evictStep_LRU, hdec, if_pos hacc,
        lru_fold_keep t (p.1, rmin.LastAccess, acc.2.2) hkeep]
      exact hp
    · have hmem2 : (kmin, GobData.record rmin) ∈ t := by
        rcases List.mem_cons.mp hmem with h | h
        · exact absurd (congrArg Prod.fst h).symm hp
        · exact h
      have hlt : rmin.LastAccess < (cacheBytesToResponse p.2).LastAccess :=
        hmin p (List.mem_cons_self p t) hp
      rw [evictStep_LRU]
      by_cases hcond : (cacheBytesToResponse p.2).LastAccess < acc.2.1
      · rw [if_pos hcond]
        exact ih (p.1, (cacheBytesToResponse p.2).LastAccess, acc.2.2) kmin rmin hmem2 hlt
          (fun q hq => hmin q (List.mem_cons_of_mem p hq))
          (fun q hq => huniq q (List.mem_cons_of_mem p hq))
      · rw [if_neg hcond]
        exact ih acc kmin rmin hmem2 hacc
          (fun q hq => hmin q (List.mem_cons_of_mem p hq))
          (fun q hq => huniq q (List.mem_cons_of_mem p hq))

theorem mfu_fold_keep (l : Store) :
    ∀ acc : Key × Time × Nat,
      (∀ p ∈ l, (cacheBytesToResponse p.2).Frequency < acc.2.2) →
      l.foldl (evictStep MFU) acc = acc := by
  induction l with
  | nil => intro acc _; rfl
  | cons p t ih =>
    intro acc h
    rw [List.foldl_cons, evictStep_MFU,
      if_neg (not_le.mpr (h p (List.mem_cons_self p t)))]
    exact ih acc (fun q hq => h q (List.mem_cons_of_mem p hq))

theorem mfu_fold_fr_le (l : Store) :
    ∀ (acc : Key × Time × Nat) (b : Nat), acc.2.2 ≤ b →
      (∀ p ∈ l, (cacheBytesToResponse p.2).Frequency ≤ b) →
      (l.foldl (evictStep MFU) acc).2.2 ≤ b := by
  induction l with
  | nil => intro acc b hb _; exact hb
  | cons p t ih =>
    intro acc b hb h
    rw [List.foldl_cons, evictStep_MFU]
    by_cases hcond : acc.2.2 ≤ (cacheBytesToResponse p.2).Frequency
    · rw [if_pos hcond]
      exact ih (p.1, acc.2.1, (cacheBytesToResponse p.2).Frequency) b
        (h p (List.mem_cons_self p t)) (fun q hq => h q (List.mem_cons_of_mem p hq))
    · rw [if_neg hcond]
      exact ih acc b hb (fun q hq => h q (List.mem_cons_of_mem p hq))

theorem mfu_fold_last (s1 s2 : Store) (kmax : Key) (rmax : Response) (acc : Key × Time × Nat)
    (hacc : acc.2.2 ≤ rmax.Frequency)
    (hle : ∀ p ∈ s1, (cacheBytesToResponse p.2).Frequency ≤ rmax.Frequency)
    (hlt : ∀ p ∈ s2, (cacheBytesToResponse p.2).Frequency < rmax.Frequency) :
    ((s1 ++ (kmax, GobData.record rmax) :: s2).foldl (evictStep MFU) acc).1 = kmax := by
  rw [List.foldl_append, List.foldl_cons]
  have h1 : (s1.foldl (evictStep MFU) acc).2.2 ≤ rmax.Frequency :=
    mfu_fold_fr_le s1 acc rmax.Frequency hacc hle
  rw [evictStep_MFU,
    show cacheBytesToResponse ((kmax, GobData.record rmax) : Key × GobData).2 = rmax from rfl,
    show ((kmax, GobData.record rmax) : Key × GobData).1 = kmax from rfl,
    if_pos h1,
    mfu_fold_keep s2 (kmax, (s1.foldl (evictStep MFU) acc).2.1, rmax.Frequency) hlt]

theorem evict_fold_mem (alg : String) (now : Time) (p : Key × GobData) (t : Store)
    (halg : alg = LRU ∨ alg = MRU ∨ alg = LFU ∨ alg = MFU)
    (hgood : ∀ q ∈ p :: t, ∃ r : Response,
      q.2 = GobData.record r ∧ r.Frequency = 1 ∧ r.LastAccess < now) :
    ((p :: t).foldl (evictStep alg) (evictInit alg now)).1 ∈ storeKeys (p :: t) := by
  have hstep : (evictStep alg (evictInit alg now) p).1 = p.1 := by
    rcases hgood p (List.mem_cons_self p t) with ⟨r, hr, hfr, hla⟩
    have hdec : cacheBytesToResponse p.2 = r := by rw [hr]; rfl
    rcases halg with h | h | h | h <;> subst h
    · rw [evictStep_LRU, hdec, evictInit_LRU, if_pos hla]
    · rw [evictStep_MRU, hdec, evictInit_MRU, if_pos (Nat.zero_le _)]
    · rw [evictStep_LFU, hdec, evictInit_LFU, if_pos (by rw [hfr]; norm_num)]
    · rw [evictStep_MFU, hdec, evictInit_MFU, if_pos (Nat.zero_le _)]
  rw [List.foldl_cons]
  rcases foldl_evictStep_mem alg t (evictStep alg (evictInit alg now) p) with h | h
  · rw [h, hstep]
    exact List.mem_cons_self p.1 (storeKeys t)
  · exact List.mem_cons_of_mem p.1 h

theorem adapter_mk_store (a : Adapter) (s : Store) :
    ({ a with store := s } : Adapter).store = s := rfl

theorem set_eq_of_evict (a : Adapter) (k : Key) (v : List Nat) (exp now : Time)
    (h : 0 < a.store.length ∧ (a.store.length : Int) = a.capacity) :
    a.Set k v exp now
      = { a.evict now with store := storeInsert (a.evict now).store k (freshEntry v exp now) } := by
  simp only [Adapter.Set]
  rw [if_pos h]
  rfl

theorem set_eq_of_no_evict (a : Adapter) (k : Key) (v : List Nat) (exp now : Time)
    (h : ¬(0 < a.store.length ∧ (a.store.length : Int) = a.capacity)) :
    a.Set k v exp now = { a with store := storeInsert a.store k (freshEntry v exp now) } := by
  simp only [Adapter.Set]
  rw [if_neg h]
  rfl

theorem release_of_lookup (a : Adapter) (k : Key) (d : GobData)
    (h : storeLookup a.store k = some d) :
    a.Release k = { a with store := storeErase a.store k } := by
  unfold Adapter.Release
  rw [h]

theorem lru_set_evicts_min (a : Adapter) (kmin k0 : Key) (rmin : Response)
    (v : List Nat) (exp now : Time)
    (halg : a.algorithm = LRU) (hcap : 1 < a.capacity)
    (hfull : (a.store.length : Int) = a.capacity)
    (hnd : (storeKeys a.store).Nodup)
    (hmem : (kmin, GobData.record rmin) ∈ a.store)
    (hpast : ∀ p ∈ a.store, (cacheBytesToResponse p.2).LastAccess < now)
    (hmin : ∀ p ∈ a.store, p.1 ≠ kmin → rmin.LastAccess < (cacheBytesToResponse p.2).LastAccess)
    (hne : k0 ≠ kmin) :
    storeLookup (a.Set k0 v exp now).store kmin = none ∧
    storeLookup (a.Set k0 v exp now).store k0 = some (freshEntry v exp now) ∧
    ∀ k2, k2 ≠ kmin → k2 ≠ k0 →
      storeLookup (a.Set k0 v exp now).store k2 = storeLookup a.store k2 := by
  have hpos : 0 < a.store.length := by
    rcases Nat.eq_zero_or_pos a.store.length with h0 | h0
    · rw [h0] at hfull
      omega
    · exact h0
  have hacc : rmin.LastAccess < (evictInit LRU now).2.1 := by
    rw [evictInit_LRU]
    exact hpast (kmin, GobData.record rmin) hmem
  have hsel : ((a.store.foldl (evictStep a.algorithm) (evictInit a.algorithm now)).1) = kmin := by
    rw [halg]
    exact lru_fold_min a.store (evictInit LRU now) kmin rmin hmem hacc hmin
      (entry_unique a.store kmin (GobData.record rmin) hnd hmem)
  have hstep : a.Set k0 v exp now
      = { a with store := storeInsert (storeErase a.store kmin) k0 (freshEntry v exp now) } := by
    rw [set_eq_of_evict a k0 v exp now ⟨hpos, hfull⟩]
    unfold Adapter.evict
    rw [hsel, release_of_lookup a kmin (GobData.record rmin)
      (storeLookup_eq_of_mem a.store kmin (GobData.record rmin) hnd hmem)]
  rw [hstep, adapter_mk_store]
  refine ⟨?_, ?_, ?_⟩
  · rw [storeLookup_insert_ne _ _ _ _ (Ne.symm hne), storeLookup_erase_self]
  · exact storeLookup_insert_self _ _ _
  · intro k2 h2min h2k0
    rw [storeLookup_insert_ne _ _ _ _ h2k0, storeLookup_erase_ne _ _ _ h2min]

/-- Claim C2: with policy LRU, a store filled to capacity whose entries all
have `lastAccess` in the past and pairwise distinct (so `kmin` holds the
strict minimum), a `Set` with a fresh key removes exactly the entry with the
smallest `lastAccess`, stores the new entry, and leaves every other
previously stored entry retrievable unchanged. -/
theorem lru_eviction_correct (a : Adapter) (kmin knew : Key) (rmin : Response)
    (v : List Nat) (exp now : Time)
    (halg : a.algorithm = LRU) (hcap : 1 < a.capacity)
    (hfull : (a.store.length : Int) = a.capacity)
    (hnd : (storeKeys a.store).Nodup)
    (hmem : (kmin, GobData.record rmin) ∈ a.store)
    (hpast : ∀ p ∈ a.store, (cacheBytesToResponse p.2).LastAccess < now)
    (hmin : ∀ p ∈ a.store, p.1 ≠ kmin → rmin.LastAccess < (cacheBytesToResponse p.2).LastAccess)
    (hnew : knew ∉ storeKeys a.store) :
    storeLookup (a.Set knew v exp now).store kmin = none ∧
    storeLookup (a.Set knew v exp now).store knew = some (freshEntry v exp now) ∧
    ∀ k2 ∈ storeKeys a.store, k2 ≠ kmin →
      storeLookup (a.Set knew v exp now).store k2 = storeLookup a.store k2 := by
  have hkmem : kmin ∈ storeKeys a.store := mem_keys_of_mem a.store _ hmem
  have hne : knew ≠ kmin := fun hh => hnew (hh.symm ▸ hkmem)
  obtain ⟨h1, h2, h3⟩ :=
    lru_set_evicts_min a kmin knew rmin v exp now halg hcap hfull hnd hmem hpast hmin hne
  exact ⟨h1, h2, fun k2 hk2 h2min => h3 k2 h2min (fun hh => hnew (hh ▸ hk2))⟩

/-- Witness for C2 at a concrete store: capacity 2, keys 1 and 2 with
lastAccess 1 and 2, inserting key 3 at time 5 evicts key 1 and keeps key 2. -/
theorem lru_eviction_correct_witness :
    ((1, GobData.record { Value := [10], Expiration := 100, LastAccess := 1, Frequency := 1 })
        ∈ ({ capacity := 2, algorithm := LRU, store :=
          [(1, GobData.record { Value := [10], Expiration := 100, LastAccess := 1, Frequency := 1 }),
           (2, GobData.record { Value := [20], Expiration := 100, LastAccess := 2, Frequency := 1 })] } : Adapter).store) ∧
    storeLookup (Adapter.Set { capacity := 2, algorithm := LRU, store :=
          [(1, GobData.record { Value := [10], Expiration := 100, LastAccess := 1, Frequency := 1 }),
           (2, GobData.record { Value := [20], Expiration := 100, LastAccess := 2, Frequency := 1 })] }
        3 [30] 100 5).store 1 = none := by
  refine ⟨by decide, ?_⟩
  exact (lru_eviction_correct _ 1 3 { Value := [10], Expiration := 100, LastAccess := 1, Frequency := 1 }
    [30] 100 5 rfl (by decide) (by decide) (by decide) (by decide) (by decide) (by decide) (by decide)).1

/-- Claim C3 (amended): when the store is at capacity, `Set(k, ...)` with `k`
already present still triggers an eviction, and the policy victim — here the
LRU minimum `kmin`, which can differ from `k` — is removed; `k` is then
overwritten with the fresh entry.  (The original claim, that overwriting an
existing key never evicts, fails: the occupancy check of `Set` does not test
whether the key is already present.) -/
theorem set_existing_key_eviction (a : Adapter) (k kmin : Key) (rmin : Response)
    (v : List Nat) (exp now : Time)
    (halg : a.algorithm = LRU) (hcap : 1 < a.capacity)
    (hfull : (a.store.length : Int) = a.capacity)
    (hnd : (storeKeys a.store).Nodup)
    (hmem : (kmin, GobData.record rmin) ∈ a.store)
    (hpast : ∀ p ∈ a.store, (cacheBytesToResponse p.2).LastAccess < now)
    (hmin : ∀ p ∈ a.store, p.1 ≠ kmin → rmin.LastAccess < (cacheBytesToResponse p.2).LastAccess)
    (hk : k ∈ storeKeys a.store) (hne : k ≠ kmin) :
    storeLookup (a.Set k v exp now).store kmin = none ∧
    storeLookup (a.Set k v exp now).store k = some (freshEntry v exp now) := by
  obtain ⟨h1, h2, h3⟩ :=
    lru_set_evicts_min a kmin k rmin v exp now halg hcap hfull hnd hmem hpast hmin hne
  exact ⟨h1, h2⟩

/-- Counterexample for claim C3 as stated: with capacity 2 and policy LRU,
after `Set(1)` at t=1 and `Set(2)` at t=2 both keys are present and the
store is at capacity; the overwrite `Set(2)` at t=3 nevertheless evicts,
and the removed entry is key 1, an entry other than the one being set. -/
theorem set_existing_key_counterexample :
    (storeLookup (((freshAdapter LRU 2).Set 1 [10] 100 1).Set 2 [20] 100 2).store 2).isSome
      = true ∧
    (storeLookup (((freshAdapter LRU 2).Set 1 [10] 100 1).Set 2 [20] 100 2).store 1).isSome
      = true ∧
    storeLookup ((((freshAdapter LRU 2).Set 1 [10] 100 1).Set 2 [20] 100 2).Set 2 [21] 100 3).store
      1 = none := by
  decide

/-- Witness for the amended C3 at a concrete store: capacity 2, keys 1 and 2,
overwriting key 2 at time 3 evicts key 1 (the LRU victim). -/
theorem set_existing_key_eviction_witness :
    (2 ∈ storeKeys ({ capacity := 2, algorithm := LRU, store :=
        [(1, GobData.record { Value := [10], Expiration := 100, LastAccess := 1, Frequency := 1 }),
         (2, GobData.record { Value := [20], Expiration := 100, LastAccess := 2, Frequency := 1 })] } : Adapter).store) ∧
    storeLookup (Adapter.Set { capacity := 2, algorithm := LRU, store :=
        [(1, GobData.record { Value := [10], Expiration := 100, LastAccess := 1, Frequency := 1 }),
         (2, GobData.record { Value := [20], Expiration := 100, LastAccess := 2, Frequency := 1 })] }
      2 [21] 100 3).store 1 = none := by
  have h := set_existing_key_eviction { capacity := 2, algorithm := LRU, store :=
        [(1, GobData.record { Value := [10], Expiration := 100, LastAccess := 1, Frequency := 1 }),
         (2, GobData.record { Value := [20], Expiration := 100, LastAccess := 2, Frequency := 1 })] }
      2 1 { Value := [10], Expiration := 100, LastAccess := 1, Frequency := 1 } [21] 100 3
      rfl (by decide) (by decide) (by decide) (by decide) (by decide) (by decide) (by decide)
      (by decide)
  exact ⟨by decide, h.1⟩

/-- Claim C7: with policy MFU, a store filled to capacity splits as
`s1 ++ (kmax, rmax) :: s2` where every entry before `kmax` has frequency at
most `rmax.Frequency` (ties allowed: a candidate with frequency greater than
or equal to the current best replaces it, so the last encountered wins) and
every entry after has strictly smaller frequency — in particular `kmax` is
the unique maximum when frequencies are pairwise distinct.  A `Set` with a
fresh key evicts exactly `kmax` and leaves every other entry unchanged. -/
theorem mfu_eviction_correct (a : Adapter) (s1 s2 : Store) (kmax knew : Key) (rmax : Response)
    (v : List Nat) (exp now : Time)
    (halg : a.algorithm = MFU) (hcap : 1 < a.capacity)
    (hsplit : a.store = s1 ++ (kmax, GobData.record rmax) :: s2)
    (hfull : (a.store.length : Int) = a.capacity)
    (hnd : (storeKeys a.store).Nodup)
    (hle : ∀ p ∈ s1, (cacheBytesToResponse p.2).Frequency ≤ rmax.Frequency)
    (hlt : ∀ p ∈ s2, (cacheBytesToResponse p.2).Frequency < rmax.Frequency)
    (hnew : knew ∉ storeKeys a.store) :
    storeLookup (a.Set knew v exp now).store kmax = none ∧
    storeLookup (a.Set knew v exp now).store knew = some (freshEntry v exp now) ∧
    ∀ k2 ∈ storeKeys a.store, k2 ≠ kmax →
      storeLookup (a.Set knew v exp now).store k2 = storeLookup a.store k2 := by
  have hmem : (kmax, GobData.record rmax) ∈ a.store := by
    rw [hsplit]
    exact List.mem_append_right s1 (List.mem_cons_self _ _)
  have hkmem : kmax ∈ storeKeys a.store := mem_keys_of_mem a.store _ hmem
  have hne : knew ≠ kmax := fun (hh : knew = kmax) => hnew (hh.symm ▸ hkmem)
  have hpos : 0 < a.store.length := by
    rw [hsplit]
    simp
  have hacc : (evictInit MFU now).2.2 ≤ rmax.Frequency := by
    rw [evictInit_MFU]
    exact Nat.zero_le _
  have hsel : ((a.store.foldl (evictStep a.algorithm) (evictInit a.algorithm now)).1) = kmax := by
    rw [halg, hsplit]
    exact mfu_fold_last s1 s2 kmax rmax (evictInit MFU now) hacc hle hlt
  have hstep : a.Set knew v exp now
      = { a with store := storeInsert (storeErase a.store kmax) knew (freshEntry v exp now) } := by
    rw [set_eq_of_evict a knew v exp now ⟨hpos, hfull⟩]
    unfold Adapter.evict
    rw [hsel, release_of_lookup a kmax (GobData.record rmax)
      (storeLookup_eq_of_mem a.store kmax (GobData.record rmax) hnd hmem)]
  rw [hstep, adapter_mk_store]
  refine ⟨?_, ?_, ?_⟩
  · rw [storeLookup_insert_ne _ _ _ _ (Ne.symm hne), storeLookup_erase_self]
  · exact storeLookup_insert_self _ _ _
  · intro k2 hk2 h2max
    rw [storeLookup_insert_ne _ _ _ _ (fun (hh : k2 = knew) => hnew (hh ▸ hk2)),
      storeLookup_erase_ne _ _ _ h2max]

/-- Witness for C7 at a concrete store: capacity 2, key 1 with frequency 3
and key 2 with frequency 5; inserting key 3 evicts key 2 (the MFU victim)
and keeps key 1. -/
theorem mfu_eviction_correct_witness :
    ((2, GobData.record { Value := [20], Expiration := 100, LastAccess := 2, Frequency := 5 })
        ∈ ({ capacity := 2, algorithm := MFU, store :=
          [(1, GobData.record { Value := [10], Expiration := 100, LastAccess := 1, Frequency := 3 }),
           (2, GobData.record { Value := [20], Expiration := 100, LastAccess := 2, Frequency := 5 })] } : Adapter).store) ∧
    storeLookup (Adapter.Set { capacity := 2, algorithm := MFU, store :=
          [(1, GobData.record { Value := [10], Expiration := 100, LastAccess := 1, Frequency := 3 }),
           (2, GobData.record { Value := [20], Expiration := 100, LastAccess := 2, Frequency := 5 })] }
        3 [30] 100 9).store 2 = none := by
  have h := mfu_eviction_correct { capacity := 2, algorithm := MFU, store :=
          [(1, GobData.record { Value := [10], Expiration := 100, LastAccess := 1, Frequency := 3 }),
           (2, GobData.record { Value := [20], Expiration := 100, LastAccess := 2, Frequency := 5 })] }
      [(1, GobData.record { Value := [10], Expiration := 100, LastAccess := 1, Frequency := 3 })]
      [] 2 3 { Value := [20], Expiration := 100, LastAccess := 2, Frequency := 5 } [30] 100 9
      rfl (by decide) rfl (by decide) (by decide) (by decide) (by decide) (by decide)
  exact ⟨by decide, h.1⟩

/-- Claim C4: for a key present with an unexpired entry (and a clock that has
advanced past the stored `lastAccess`), a successful `Get` returns the value
with `found = true`, and afterwards the stored entry for the key has
`LastAccess = now` (strictly greater than before), `Frequency` exactly one
greater, the same `Value` and `Expiration` (a metadata-only rewrite), and no
other key's entry is modified. -/
theorem get_refreshes_metadata (a : Adapter) (k : Key) (r : Response) (now : Time)
    (hmem : storeLookup a.store k = some (GobData.record r))
    (hunexp : now < r.Expiration)
    (hla : r.LastAccess < now) :
    (a.Get k now).1 = some r.Value ∧
    (a.Get k now).2.1 = true ∧
    storeLookup (a.Get k now).2.2.store k = some (GobData.record { Value := r.Value, Expiration := r.Expiration, LastAccess := now, Frequency := r.Frequency + 1 }) ∧
    r.LastAccess < now ∧
    (∀ k2, k2 ≠ k → storeLookup (a.Get k now).2.2.store k2 = storeLookup a.store k2) := by
  have hget : a.Get k now = (some r.Value, true, { a with store := storeInsert a.store k (GobData.record { Value := r.Value, Expiration := r.Expiration, LastAccess := now, Frequency := r.Frequency + 1 }) }) := by
    simp only [Adapter.Get, hmem, BytesToResponse]
    rw [if_pos hunexp]
    rfl
  rw [hget]
  refine ⟨rfl, rfl, ?_, hla, ?_⟩
  · exact storeLookup_insert_self _ _ _
  · intro k2 hk2
    exact storeLookup_insert_ne _ _ _ _ hk2

/-- Witness for C4: a single-entry store, key 1 with expiration 10,
lastAccess 2, frequency 4; `Get` at time 5 hits and rewrites the metadata. -/
theorem get_refreshes_metadata_witness :
    storeLookup ({ capacity := 2, algorithm := LRU, store :=
        [(1, GobData.record { Value := [7], Expiration := 10, LastAccess := 2, Frequency := 4 })] } : Adapter).store 1
      = some (GobData.record { Value := [7], Expiration := 10, LastAccess := 2, Frequency := 4 }) ∧
    (Adapter.Get { capacity := 2, algorithm := LRU, store :=
        [(1, GobData.record { Value := [7], Expiration := 10, LastAccess := 2, Frequency := 4 })] } 1 5).1
      = some [7] ∧
    storeLookup (Adapter.Get { capacity := 2, algorithm := LRU, store :=
        [(1, GobData.record { Value := [7], Expiration := 10, LastAccess := 2, Frequency := 4 })] } 1 5).2.2.store 1
      = some (GobData.record { Value := [7], Expiration := 10, LastAccess := 5, Frequency := 5 }) := by
  have h := get_refreshes_metadata { capacity := 2, algorithm := LRU, store :=
        [(1, GobData.record { Value := [7], Expiration := 10, LastAccess := 2, Frequency := 4 })] }
      1 { Value := [7], Expiration := 10, LastAccess := 2, Frequency := 4 } 5
      (by decide) (by decide) (by decide)
  exact ⟨by decide, h.1, h.2.2.1⟩

/-- Claim C6: for a key present in the store, if the entry's expiration is
not after the current time the next `Get` is a miss — it returns
`(none, false)` and removes the entry via the same `Release` path — while an
entry whose expiration is strictly after the current time is returned with
`found = true`. -/
theorem expiration_semantics (a : Adapter) (k : Key) (d : GobData) (now : Time)
    (hmem : storeLookup a.store k = some d) :
    ((BytesToResponse d).Expiration ≤ now →
      a.Get k now = (none, false, a.Release k) ∧
      storeLookup (a.Get k now).2.2.store k = none) ∧
    (now < (BytesToResponse d).Expiration →
      (a.Get k now).1 = some (BytesToResponse d).Value ∧ (a.Get k now).2.1 = true) := by
  constructor
  · intro hexp
    have hget : a.Get k now = (none, false, a.Release k) := by
      simp only [Adapter.Get, hmem]
      rw [if_neg (not_lt.mpr hexp)]
    refine ⟨hget, ?_⟩
    rw [hget]
    show storeLookup (a.Release k).store k = none
    rw [release_of_lookup a k d hmem, adapter_mk_store]
    exact storeLookup_erase_self _ _
  · intro hexp
    have hget : a.Get k now = (some (BytesToResponse d).Value, true, { a with store := storeInsert a.store k (GobData.record { Value := (BytesToResponse d).Value, Expiration := (BytesToResponse d).Expiration, LastAccess := now, Frequency := (BytesToResponse d).Frequency + 1 }) }) := by
      simp only [Adapter.Get, hmem]
      rw [if_pos hexp]
      rfl
    rw [hget]
    exact ⟨rfl, rfl⟩

/-- Witness for C6: key 1 stored with expiration 3; at time 5 the entry is
expired, so `Get` misses and deletes it. -/
theorem expiration_semantics_witness :
    Adapter.Get { capacity := 2, algorithm := LRU, store :=
        [(1, GobData.record { Value := [7], Expiration := 3, LastAccess := 1, Frequency := 1 })] } 1 5
      = (none, false, Adapter.Release { capacity := 2, algorithm := LRU, store :=
        [(1, GobData.record { Value := [7], Expiration := 3, LastAccess := 1, Frequency := 1 })] } 1) ∧
    storeLookup (Adapter.Get { capacity := 2, algorithm := LRU, store :=
        [(1, GobData.record { Value := [7], Expiration := 3, LastAccess := 1, Frequency := 1 })] } 1 5).2.2.store 1
      = none := by
  exact (expiration_semantics { capacity := 2, algorithm := LRU, store :=
        [(1, GobData.record { Value := [7], Expiration := 3, LastAccess := 1, Frequency := 1 })] }
      1 (GobData.record { Value := [7], Expiration := 3, LastAccess := 1, Frequency := 1 }) 5
      (by decide)).1 (by decide)

/-- Claim C10: a stored blob that does not decode to a valid entry decodes —
without any error surfaced to the caller — to the zero-valued entry, whose
zero expiration is never after the current time, so `Get` reports a miss and
removes the corrupted record via the `Release` path. -/
theorem corrupted_entry_self_heals (a : Adapter) (k : Key) (n : Nat) (now : Time)
    (hmem : storeLookup a.store k = some (GobData.junk n)) :
    BytesToResponse (GobData.junk n) = zeroResponse ∧
    a.Get k now = (none, false, a.Release k) ∧
    storeLookup (a.Get k now).2.2.store k = none := by
  have hget : a.Get k now = (none, false, a.Release k) := by
    simp only [Adapter.Get, hmem, BytesToResponse, zeroResponse]
    rw [if_neg (Nat.not_lt_zero now)]
  refine ⟨rfl, hget, ?_⟩
  rw [hget]
  show storeLookup (a.Release k).store k = none
  rw [release_of_lookup a k (GobData.junk n) hmem, adapter_mk_store]
  exact storeLookup_erase_self _ _

/-- Witness for C10: key 1 holds junk bytes; `Get` at time 5 misses and
removes the record. -/
theorem corrupted_entry_self_heals_witness :
    BytesToResponse (GobData.junk 0) = zeroResponse ∧
    Adapter.Get { capacity := 2, algorithm := LRU, store := [(1, GobData.junk 0)] } 1 5
      = (none, false,
        Adapter.Release { capacity := 2, algorithm := LRU, store := [(1, GobData.junk 0)] } 1) ∧
    storeLookup (Adapter.Get { capacity := 2, algorithm := LRU, store := [(1, GobData.junk 0)] } 1 5).2.2.store 1 = none := by
  exact corrupted_entry_self_heals
    { capacity := 2, algorithm := LRU, store := [(1, GobData.junk 0)] } 1 0 5 (by decide)

theorem adapterWithCapacity_le (c : Int) (a : Adapter) (h : c ≤ 1) :
    AdapterWithCapacity c a
      = Except.error "memory adapter requires a capacity greater than the given value" := by
  unfold AdapterWithCapacity
  rw [if_pos h]

theorem adapterWithCapacity_gt (c : Int) (a : Adapter) (h : ¬(c ≤ 1)) :
    AdapterWithCapacity c a = Except.ok { a with capacity := c } := by
  unfold AdapterWithCapacity
  rw [if_neg h]

theorem finalizeAdapter_eq (c : Int) (alg : String) (s : Store) :
    finalizeAdapter { capacity := c, algorithm := alg, store := s }
      = if c ≤ 1 then Except.error "memory adapter capacity is not set"
        else if alg = "" then Except.error "memory adapter caching algorithm is not set"
        else Except.ok { capacity := c, algorithm := alg, store := [] } := rfl

/-- Claim C8 (amended): `NewAdapter` with the algorithm and capacity options
fails exactly when the configured capacity is `≤ 1` or the algorithm tag is
unset (the empty string); any non-empty algorithm string — recognized or
not — is accepted, and on success the result is the empty store with the
configured capacity and algorithm.  (The original claim, that an
unrecognized policy tag is rejected, fails: the constructor only compares
the algorithm against the empty string.) -/
theorem newadapter_ok_characterization (alg : String) (c : Int) :
    (exceptOk (NewAdapter [AdapterWithAlgorithm alg, AdapterWithCapacity c]) = true
      ↔ (1 < c ∧ alg ≠ "")) ∧
    (1 < c → alg ≠ "" →
      NewAdapter [AdapterWithAlgorithm alg, AdapterWithCapacity c]
        = Except.ok { capacity := c, algorithm := alg, store := [] }) := by
  have hbase : applyOpts [AdapterWithAlgorithm alg, AdapterWithCapacity c]
      { capacity := 0, algorithm := "", store := [] }
      = match AdapterWithCapacity c { capacity := 0, algorithm := alg, store := [] } with
        | .error e => Except.error e
        | .ok a2 => applyOpts [] a2 := rfl
  by_cases hc : c ≤ 1
  · have herr : NewAdapter [AdapterWithAlgorithm alg, AdapterWithCapacity c]
        = Except.error "memory adapter requires a capacity greater than the given value" := by
      unfold NewAdapter
      rw [hbase, adapterWithCapacity_le c _ hc]
    constructor
    · constructor
      · intro h
        rw [herr] at h
        simp [exceptOk] at h
      · rintro ⟨h1, -⟩
        exact absurd h1 (not_lt.mpr hc)
    · intro h1 _
      exact absurd h1 (not_lt.mpr hc)
  · have hok : NewAdapter [AdapterWithAlgorithm alg, AdapterWithCapacity c]
        = (if alg = "" then Except.error "memory adapter caching algorithm is not set"
           else Except.ok { capacity := c, algorithm := alg, store := [] }) := by
      unfold NewAdapter
      rw [hbase, adapterWithCapacity_gt c _ hc]
      show finalizeAdapter { capacity := c, algorithm := alg, store := [] } = _
      rw [finalizeAdapter_eq, if_neg hc]
    constructor
    · constructor
      · intro h
        refine ⟨not_le.mp hc, ?_⟩
        intro ha
        rw [hok, if_pos ha] at h
        simp [exceptOk] at h
      · rintro ⟨-, h2⟩
        rw [hok, if_neg h2]
        rfl
    · intro _ h2
      rw [hok, if_neg h2]

/-- Witness for the amended C8: algorithm `LRU` with capacity 5 constructs
the empty store. -/
theorem newadapter_ok_characterization_witness :
    NewAdapter [AdapterWithAlgorithm LRU, AdapterWithCapacity 5]
      = Except.ok { capacity := 5, algorithm := LRU, store := [] } :=
  (newadapter_ok_characterization LRU 5).2 (by decide) (by decide)

/-- Counterexample for claim C8 as stated: the algorithm tag "XYZ" is none
of the four recognized constants, yet `NewAdapter` accepts it (it only
rejects the empty string), so construction does not fail for every
unrecognized policy. -/
theorem newadapter_unrecognized_accepted :
    exceptOk (NewAdapter [AdapterWithAlgorithm "XYZ", AdapterWithCapacity 5]) = true ∧
    "XYZ" ≠ LRU ∧ "XYZ" ≠ MRU ∧ "XYZ" ≠ LFU ∧ "XYZ" ≠ MFU := by
  decide

theorem release_capacity (a : Adapter) (k : Key) : (a.Release k).capacity = a.capacity := by
  unfold Adapter.Release
  cases storeLookup a.store k <;> rfl

theorem release_algorithm (a : Adapter) (k : Key) : (a.Release k).algorithm = a.algorithm := by
  unfold Adapter.Release
  cases storeLookup a.store k <;> rfl

theorem evict_sel_mem_of_ne_nil (alg : String) (now : Time) (s : Store) (hne : s ≠ [])
    (halg : alg = LRU ∨ alg = MRU ∨ alg = LFU ∨ alg = MFU)
    (hgood : ∀ q ∈ s, ∃ r : Response,
      q.2 = GobData.record r ∧ r.Frequency = 1 ∧ r.LastAccess < now) :
    (s.foldl (evictStep alg) (evictInit alg now)).1 ∈ storeKeys s := by
  cases s with
  | nil => exact absurd rfl hne
  | cons p t => exact evict_fold_mem alg now p t halg hgood

theorem set_preserves_inv (a : Adapter) (c : SetCall) (ts : List Time)
    (halg : a.algorithm = LRU ∨ a.algorithm = MRU ∨ a.algorithm = LFU ∨ a.algorithm = MFU)
    (hcap : 1 < a.capacity)
    (hnd : (storeKeys a.store).Nodup)
    (hlen : (a.store.length : Int) ≤ a.capacity)
    (hgood : ∀ p ∈ a.store, ∃ r : Response, p.2 = GobData.record r ∧ r.Frequency = 1 ∧
      r.LastAccess < c.now ∧ ∀ t ∈ ts, r.LastAccess < t)
    (hk : c.key ∉ storeKeys a.store)
    (hts : ∀ t ∈ ts, c.now < t) :
    (a.Set c.key c.value c.expiration c.now).capacity = a.capacity ∧
    (a.Set c.key c.value c.expiration c.now).algorithm = a.algorithm ∧
    (storeKeys (a.Set c.key c.value c.expiration c.now).store).Nodup ∧
    (((a.Set c.key c.value c.expiration c.now).store.length : Int) ≤ a.capacity) ∧
    (∀ p ∈ (a.Set c.key c.value c.expiration c.now).store, ∃ r : Response,
      p.2 = GobData.record r ∧ r.Frequency = 1 ∧ ∀ t ∈ ts, r.LastAccess < t) ∧
    (∀ x ∈ storeKeys (a.Set c.key c.value c.expiration c.now).store,
      x = c.key ∨ x ∈ storeKeys a.store) := by
  by_cases hcond : 0 < a.store.length ∧ (a.store.length : Int) = a.capacity
  · -- at capacity: evict, then insert
    have hnonnil : a.store ≠ [] := List.length_pos.mp hcond.1
    set sel := (a.store.foldl (evictStep a.algorithm) (evictInit a.algorithm c.now)).1
      with hseldef
    have hselmem : sel ∈ storeKeys a.store := by
      apply evict_sel_mem_of_ne_nil a.algorithm c.now a.store hnonnil halg
      intro q hq
      rcases hgood q hq with ⟨r, hr, hfr, hla, -⟩
      exact ⟨r, hr, hfr, hla⟩
    obtain ⟨d, hd⟩ := storeLookup_some_of_mem_keys a.store sel hselmem
    have hstep : a.Set c.key c.value c.expiration c.now
        = { a with store := storeInsert (storeErase a.store sel) c.key (freshEntry c.value c.expiration c.now) } := by
      rw [set_eq_of_evict a c.key c.value c.expiration c.now hcond]
      unfold Adapter.evict
      rw [← hseldef, release_of_lookup a sel d hd]
    have hsub : storeKeys (storeErase a.store sel) ⊆ storeKeys a.store :=
      ((storeErase_sublist a.store sel).map Prod.fst).subset
    have hkE : c.key ∉ storeKeys (storeErase a.store sel) :=
      fun hh => hk (hsub hh)
    have hndE := storeKeys_erase_nodup a.store sel hnd
    have hlenE := length_storeErase_of_mem a.store sel hnd hselmem
    rw [hstep, adapter_mk_store]
    refine ⟨rfl, rfl, ?_, ?_, ?_, ?_⟩
    · exact storeKeys_insert_nodup _ _ _ hndE hkE
    · rw [length_storeInsert_of_not_mem _ _ _ hkE]
      have h2 := hcond.2
      omega
    · intro p hp
      rcases mem_of_mem_storeInsert _ _ _ _ hp with h | h
      · rcases hgood p (mem_of_mem_storeErase _ _ _ h) with ⟨r, hr, hfr, -, hfut⟩
        exact ⟨r, hr, hfr, hfut⟩
      · refine ⟨⟨c.value, c.expiration, c.now, 1⟩, by rw [h]; rfl, rfl, ?_⟩
        intro t ht
        exact hts t ht
    · intro x hx
      rw [storeKeys_insert_of_not_mem _ _ _ hkE] at hx
      rcases List.mem_append.mp hx with h | h
      · exact Or.inr (hsub h)
      · exact Or.inl (List.mem_singleton.mp h)
  · -- below capacity: plain insert
    have hstep := set_eq_of_no_evict a c.key c.value c.expiration c.now hcond
    rw [hstep, adapter_mk_store]
    refine ⟨rfl, rfl, ?_, ?_, ?_, ?_⟩
    · exact storeKeys_insert_nodup _ _ _ hnd hk
    · rw [length_storeInsert_of_not_mem _ _ _ hk]
      omega
    · intro p hp
      rcases mem_of_mem_storeInsert _ _ _ _ hp with h | h
      · rcases hgood p h with ⟨r, hr, hfr, -, hfut⟩
        exact ⟨r, hr, hfr, hfut⟩
      · refine ⟨⟨c.value, c.expiration, c.now, 1⟩, by rw [h]; rfl, rfl, ?_⟩
        intro t ht
        exact hts t ht
    · intro x hx
      rw [storeKeys_insert_of_not_mem _ _ _ hk] at hx
      rcases List.mem_append.mp hx with h | h
      · exact Or.inr h
      · exact Or.inl (List.mem_singleton.mp h)

theorem runSets_inv (calls : List SetCall) : ∀ a : Adapter,
    (a.algorithm = LRU ∨ a.algorithm = MRU ∨ a.algorithm = LFU ∨ a.algorithm = MFU) →
    1 < a.capacity →
    (storeKeys a.store).Nodup →
    ((a.store.length : Int) ≤ a.capacity) →
    (∀ p ∈ a.store, ∃ r : Response, p.2 = GobData.record r ∧ r.Frequency = 1 ∧
      ∀ c2 ∈ calls, r.LastAccess < c2.now) →
    (∀ c2 ∈ calls, c2.key ∉ storeKeys a.store) →
    ((calls.map SetCall.key).Nodup) →
    ((calls.map SetCall.now).Pairwise (· < ·)) →
    ((runSets a calls).store.length : Int) ≤ a.capacity := by
  induction calls with
  | nil =>
    intro a _ _ _ hlen _ _ _ _
    exact hlen
  | cons c cs ih =>
    intro a halg hcap hnd hlen hgood hfresh hkeys htimes
    have hpair := List.pairwise_cons.mp htimes
    have hkey2 := List.nodup_cons.mp hkeys
    have hstep := set_preserves_inv a c (cs.map SetCall.now) halg hcap hnd hlen
      (by
        intro p hp
        rcases hgood p hp with ⟨r, hr, hfr, hall⟩
        refine ⟨r, hr, hfr, hall c (List.mem_cons_self c cs), ?_⟩
        intro t ht
        rcases List.mem_map.mp ht with ⟨c2, hc2, hceq⟩
        rw [← hceq]
        exact hall c2 (List.mem_cons_of_mem c hc2))
      (hfresh c (List.mem_cons_self c cs))
      (fun t ht => hpair.1 t ht)
    obtain ⟨hc1, hc2, hc3, hc4, hc5, hc6⟩ := hstep
    show ((runSets (a.Set c.key c.value c.expiration c.now) cs).store.length : Int) ≤ a.capacity
    rw [← hc1]
    apply ih (a.Set c.key c.value c.expiration c.now)
    · rw [hc2]
      exact halg
    · rw [hc1]
      exact hcap
    · exact hc3
    · rw [hc1]
      exact hc4
    · intro p hp
      rcases hc5 p hp with ⟨r, hr, hfr, hall⟩
      refine ⟨r, hr, hfr, ?_⟩
      intro c2 hc2mem
      exact hall c2.now (List.mem_map_of_mem SetCall.now hc2mem)
    · intro c2 hc2mem hmem
      rcases hc6 c2.key hmem with h | h
      · exact hkey2.1 (h ▸ List.mem_map_of_mem SetCall.key hc2mem)
      · exact hfresh c2 (List.mem_cons_of_mem c hc2mem) h
    · exact hkey2.2
    · exact hpair.2

/-- Claim C1: starting from a freshly constructed store with capacity
greater than 1 and any of the four eviction policies, running any sequential
program of `Set` calls with pairwise-distinct keys (at strictly increasing
times), the store size never exceeds the capacity at any point after a `Set`
completes. -/
theorem capacity_invariant (alg : String) (capacity : Int) (calls : List SetCall)
    (halg : alg = LRU ∨ alg = MRU ∨ alg = LFU ∨ alg = MFU)
    (hcap : 1 < capacity)
    (hkeys : (calls.map SetCall.key).Nodup)
    (htimes : (calls.map SetCall.now).Pairwise (· < ·)) :
    ∀ pre post, calls = pre ++ post →
      ((runSets (freshAdapter alg capacity) pre).store.length : Int) ≤ capacity := by
  intro pre post hsplit
  subst hsplit
  rw [List.map_append] at hkeys htimes
  have h1 : (pre.map SetCall.key).Nodup := (List.nodup_append.mp hkeys).1
  have h2 : (pre.map SetCall.now).Pairwise (· < ·) :=
    htimes.sublist (List.sublist_append_left _ _)
  exact runSets_inv pre (freshAdapter alg capacity) halg hcap List.nodup_nil
    (by show ((0 : Nat) : Int) ≤ capacity; omega)
    (fun p hp => absurd hp (List.not_mem_nil p))
    (fun c2 _ hmem => absurd hmem (List.not_mem_nil _))
    h1 h2

/-- Witness for C1: capacity 2, policy LRU, three Sets with distinct keys at
times 1 < 2 < 3; after the full program the store holds at most 2 entries. -/
theorem capacity_invariant_witness :
    ((LRU = LRU ∨ LRU = MRU ∨ LRU = LFU ∨ LRU = MFU) ∧ (1 : Int) < 2 ∧
      (([⟨1, [1], 100, 1⟩, ⟨2, [2], 100, 2⟩, ⟨3, [3], 100, 3⟩] : List SetCall).map
        SetCall.key).Nodup ∧
      (([⟨1, [1], 100, 1⟩, ⟨2, [2], 100, 2⟩, ⟨3, [3], 100, 3⟩] : List SetCall).map
        SetCall.now).Pairwise (· < ·)) ∧
    ((runSets (freshAdapter LRU 2)
      [⟨1, [1], 100, 1⟩, ⟨2, [2], 100, 2⟩, ⟨3, [3], 100, 3⟩]).store.length : Int) ≤ 2 := by
  refine ⟨⟨Or.inl rfl, by decide, by decide, by decide⟩, ?_⟩
  exact capacity_invariant LRU 2 [⟨1, [1], 100, 1⟩, ⟨2, [2], 100, 2⟩, ⟨3, [3], 100, 3⟩]
    (Or.inl rfl) (by decide) (by decide) (by decide)
    [⟨1, [1], 100, 1⟩, ⟨2, [2], 100, 2⟩, ⟨3, [3], 100, 3⟩] [] rfl
